import Mathlib

/-!
Verification of the batch-rename engine of `file_renamer`
(`src/file_renamer/file_renamer.py`, class `FileReNamer`).

Embedding choices:
* a filename is a `List Char` (Python `str`); string literals are turned into
  character lists with `String.data`;
* a directory is its listing: a `List (List Char)` snapshot of filenames, and
  `os.path.exists`/`os.rename` act on that listing (`join_with_dir` is a
  bijection between names and paths inside the single target directory, so it
  is absorbed into the name space);
* a rename plan (the Python dict `{old: new}`, whose iteration order is its
  insertion order) is an ordered association list `List (List Char × List Char)`;
* the `input()` confirmation answer is an explicit `String` argument;
* Python exceptions (`ValueError` from `fname.index(".")`) are `Except` values;
* per-entry observable behaviour of the executor (an applied `os.rename`, or
  one of the two printed skip messages) is recorded as a `RenameOutcome` trace.
-/

namespace FileReNamer

/-- Per-entry result of the executor (`FileReNamer.rename`): the rename was
applied, or the entry was skipped because the source does not exist, or
because the destination already exists. -/
inductive RenameOutcome where
  | Applied
  | SkippedMissingSource
  | SkippedTargetExists
deriving DecidableEq, Repr

/-- Error raised by a name transform: `fname.index "."` raises `ValueError`
when the filename has no `.` (the spec calls this `NoExtension`). -/
inductive PlanError where
  | NoExtension
deriving DecidableEq, Repr

/-- Python substring test `pat in s` (note `"" in s` is `True`). -/
def occursIn (pat : List Char) : List Char → Bool
  | [] => pat.isEmpty
  | c :: rest => pat.isPrefixOf (c :: rest) || occursIn pat rest

/-- Fuel-driven core of Python `s.replace(pat, rep)`: replaces every
non-overlapping occurrence of `pat` by `rep`, scanning left to right; an empty
`pat` matches before every character and at the end (CPython semantics).
The fuel is an upper bound on `s.length`, making the kernel able to evaluate
the function (structural recursion on the fuel). -/
def pyReplaceAux (pat rep : List Char) : Nat → List Char → List Char
  | _, [] => if pat.isEmpty then rep else []
  | 0, c :: rest => c :: rest
  | Nat.succ n, c :: rest =>
    if pat.isEmpty then rep ++ c :: pyReplaceAux pat rep n rest
    else if pat.isPrefixOf (c :: rest) then
      rep ++ pyReplaceAux pat rep n ((c :: rest).drop pat.length)
    else c :: pyReplaceAux pat rep n rest

/-- Python `s.replace(pat, rep)`. -/
def pyReplace (pat rep s : List Char) : List Char := pyReplaceAux pat rep s.length s

/-- Fuel-driven core of Python `s.count(pat)` restricted to what we need:
the number of (non-overlapping, left-to-right) occurrences replaced by
`pyReplace`. -/
def countOccAux (pat : List Char) : Nat → List Char → Nat
  | _, [] => if pat.isEmpty then 1 else 0
  | 0, _ :: _ => 0
  | Nat.succ n, c :: rest =>
    if pat.isEmpty then 1 + countOccAux pat n rest
    else if pat.isPrefixOf (c :: rest) then
      1 + countOccAux pat n ((c :: rest).drop pat.length)
    else countOccAux pat n rest

/-- Number of occurrences of `pat` that `pyReplace` replaces in `s`. -/
def countOcc (pat s : List Char) : Nat := countOccAux pat s.length s

/-- Python `str(n)` for a natural number. -/
def str_of_nat (n : Nat) : List Char := Nat.toDigits 10 n

/-- Python `str(i)` for an integer. -/
def str_of_int (i : Int) : List Char :=
  if i < 0 then '-' :: str_of_nat i.natAbs else str_of_nat i.natAbs

/-- `FileReNamer.get_ext`: `fname[fname.index("."):]` — the substring from the
first `.` to the end; raises (`NoExtension`) when there is no `.`. -/
def get_ext (fname : List Char) : Except PlanError (List Char) :=
  if '.' ∈ fname then Except.ok (fname.dropWhile (fun c => c != '.'))
  else Except.error PlanError.NoExtension

/-- `FileReNamer.get_suffixed`: `fname[:fname.index(".")] + suffix + get_ext fname`. -/
def get_suffixed (fname suffix : List Char) : Except PlanError (List Char) :=
  (get_ext fname).map (fun ext => fname.takeWhile (fun c => c != '.') ++ suffix ++ ext)

/-- `FileReNamer.get_prefixed`: the prefix text prepended to the filename. -/
def get_prefixed (fname pre : List Char) : List Char := pre ++ fname

/-- `FileReNamer.rename`: renames one file. If the source path does not exist,
or the destination path already exists, the entry is skipped (an error is
printed) and the listing is unchanged; otherwise `os.rename` is performed
(the old name leaves the listing, the new name enters it). -/
def rename (fs : List (List Char)) (old_path new_path : List Char) :
    List (List Char) × RenameOutcome :=
  if old_path ∉ fs then (fs, RenameOutcome.SkippedMissingSource)
  else if new_path ∈ fs then (fs, RenameOutcome.SkippedTargetExists)
  else (fs.erase old_path ++ [new_path], RenameOutcome.Applied)

/-- The confirmed loop of `FileReNamer.rename_these`: sends each `(old, new)`
pair of the plan, in insertion order, to `rename`, threading the directory
listing and recording each entry's outcome. -/
def execPlan : List (List Char) → List (List Char × List Char) →
    List (List Char) × List (List Char × List Char × RenameOutcome)
  | fs, [] => (fs, [])
  | fs, e :: rest =>
    ((execPlan (rename fs e.1 e.2).1 rest).1,
     (e.1, e.2, (rename fs e.1 e.2).2) :: (execPlan (rename fs e.1 e.2).1 rest).2)

/-- `FileReNamer.rename_these`: asks for confirmation; any answer other than
the literal `"y"` discards the plan (no mutation, empty outcome trace),
otherwise the plan is executed entry by entry. -/
def rename_these (fs : List (List Char)) (files_to_change : List (List Char × List Char))
    (ans : String) : List (List Char) × List (List Char × List Char × RenameOutcome) :=
  if ans = "y" then execPlan fs files_to_change else (fs, [])

/-- The plan built by `FileReNamer.replace`:
`{f: f.replace(change_this, to_this) for f in filenames if change_this in f}`. -/
def replacePlan (fs : List (List Char)) (change_this to_this : List Char) :
    List (List Char × List Char) :=
  (fs.filter (fun f => occursIn change_this f)).map
    (fun f => (f, pyReplace change_this to_this f))

/-- The plan built by `FileReNamer.add_prefix`:
`{f: prefix + f for f in filenames if not f.startswith(prefix)}`. -/
def prefixPlan (fs : List (List Char)) (p : List Char) : List (List Char × List Char) :=
  (fs.filter (fun f => !(p.isPrefixOf f))).map (fun f => (f, get_prefixed f p))

/-- The plan built by `FileReNamer.add_suffix`:
`{f: get_suffixed(f, suffix) for f in filenames if not f.endswith(suffix)}`;
the first included filename without a `.` raises `NoExtension`. -/
def suffixPlan : List (List Char) → List Char →
    Except PlanError (List (List Char × List Char))
  | [], _ => Except.ok []
  | f :: rest, s =>
    if s.isSuffixOf f then suffixPlan rest s
    else
      match get_suffixed f s with
      | Except.error e => Except.error e
      | Except.ok g => (suffixPlan rest s).map (fun plan => (f, g) :: plan)

/-- The comprehension of `FileReNamer.add_enum` started at listing index `i`:
`{f: f + sep + str(idx + start) for idx, f in enumerate(filenames)}`. -/
def enumPlanFrom (start : Int) (sep : List Char) : Nat → List (List Char) →
    List (List Char × List Char)
  | _, [] => []
  | i, f :: rest =>
    (f, f ++ sep ++ str_of_int ((i : Int) + start)) :: enumPlanFrom start sep (i + 1) rest

/-- The plan built by `FileReNamer.add_enum` (the dict comprehension does not
mention the `loc` parameter at all). -/
def enumPlan (fs : List (List Char)) (start : Int) (sep : List Char) :
    List (List Char × List Char) :=
  enumPlanFrom start sep 0 fs

/-- `FileReNamer.add_enum`: builds the enumeration plan and hands it to
`rename_these`. The `loc` parameter is accepted but never used. -/
def add_enum (fs : List (List Char)) (start : Int) (loc sep : List Char) (ans : String) :
    List (List Char) × List (List Char × List Char × RenameOutcome) :=
  rename_these fs (enumPlan fs start sep) ans

/-- The plan built by `FileReNamer.add_from_file`: non-`.txt` files are
skipped; for the others the content search (file read + `re.search`, an
external collaborator modelled by the `search` oracle returning the first
match's first capture group) either fails (the file is silently excluded) or
yields text joined by `get_suffixed` when `loc = "end"` and by `get_prefixed`
otherwise. -/
def fromFilePlan : List (List Char) → (List Char → Option (List Char)) → List Char →
    Except PlanError (List (List Char × List Char))
  | [], _, _ => Except.ok []
  | f :: rest, search, loc =>
    if ".txt".data.isSuffixOf f then
      match search f with
      | none => fromFilePlan rest search loc
      | some m =>
        match (if loc = "end".data then get_suffixed f m
               else Except.ok (get_prefixed f m)) with
        | Except.error e => Except.error e
        | Except.ok g => (fromFilePlan rest search loc).map (fun plan => (f, g) :: plan)
    else fromFilePlan rest search loc

/-- The rename rules of the spec's data model (`RenameRule`). -/
inductive RenameRule where
  | Replace (change_this to_this : List Char)
  | Prepend (p : List Char)
  | Append (s : List Char)
  | Enumerate (start : Int) (sep : List Char)
  | ContentMatch (search : List Char → Option (List Char)) (loc : List Char)

/-- The planner: the plan each rule's source method builds over a snapshot. -/
def rulePlan : RenameRule → List (List Char) →
    Except PlanError (List (List Char × List Char))
  | RenameRule.Replace a b, fs => Except.ok (replacePlan fs a b)
  | RenameRule.Prepend p, fs => Except.ok (prefixPlan fs p)
  | RenameRule.Append s, fs => suffixPlan fs s
  | RenameRule.Enumerate start sep, fs => Except.ok (enumPlan fs start sep)
  | RenameRule.ContentMatch search loc, fs => fromFilePlan fs search loc

/-- Side condition under which a rule's transform never maps a name to
itself: `Replace` must not replace a string by itself, and a content match
must produce non-empty text. -/
def ruleProper : RenameRule → Prop
  | RenameRule.Replace a b => a ≠ b
  | RenameRule.ContentMatch search _ => ∀ f m, search f = some m → m ≠ []
  | _ => True

/-! Bridging lemmas between boolean string tests and their propositional forms. -/

lemma isPrefixOf_eq_true_iff (l₁ l₂ : List Char) : l₁.isPrefixOf l₂ = true ↔ l₁ <+: l₂ := by
  exact List.isPrefixOf_iff_prefix

lemma length_pos_of_not_isEmpty (pat : List Char) (h : pat.isEmpty = false) :
    0 < pat.length := by
  cases pat with
  | nil => simp at h
  | cons c rest => simp

/-! Equation and congruence lemmas for the fuel-driven `pyReplace` and `countOcc`. -/

lemma pyReplaceAux_nil (pat rep : List Char) (n : Nat) :
    pyReplaceAux pat rep n [] = if pat.isEmpty then rep else [] := by
  cases n <;> rfl

lemma pyReplaceAux_congr (pat rep : List Char) :
    ∀ n m (s : List Char), s.length ≤ n → s.length ≤ m →
      pyReplaceAux pat rep n s = pyReplaceAux pat rep m s := by
  intro n
  induction n with
  | zero =>
    intro m s hn _
    have hs : s = [] := by cases s with
      | nil => rfl
      | cons c rest => simp at hn
    subst hs
    rw [pyReplaceAux_nil, pyReplaceAux_nil]
  | succ k ih =>
    intro m s hn hm
    cases s with
    | nil => rw [pyReplaceAux_nil, pyReplaceAux_nil]
    | cons c rest =>
      cases m with
      | zero => simp at hm
      | succ m' =>
        have hrest : rest.length ≤ k := by simp at hn; omega
        have hrest' : rest.length ≤ m' := by simp at hm; omega
        by_cases hemp : pat.isEmpty
        · simp only [pyReplaceAux, hemp, if_true]
          rw [ih m' rest hrest hrest']
        · have hpos : 0 < pat.length :=
            length_pos_of_not_isEmpty pat (eq_false_of_ne_true hemp)
          have hdrop : ((c :: rest).drop pat.length).length ≤ k := by
            simp [List.length_drop]; omega
          have hdrop' : ((c :: rest).drop pat.length).length ≤ m' := by
            simp [List.length_drop]; omega
          by_cases hpre : pat.isPrefixOf (c :: rest)
          · simp only [pyReplaceAux]
            simp only [hemp, hpre, Bool.false_eq_true, if_false, if_true]
            rw [ih m' _ hdrop hdrop']
          · simp only [pyReplaceAux]
            simp only [hemp, hpre, Bool.false_eq_true, if_false]
            rw [ih m' rest hrest hrest']

lemma pyReplace_nil (pat rep : List Char) :
    pyReplace pat rep [] = if pat.isEmpty then rep else [] := rfl

lemma pyReplace_cons (pat rep : List Char) (c : Char) (rest : List Char) :
    pyReplace pat rep (c :: rest) =
      if pat.isEmpty then rep ++ c :: pyReplace pat rep rest
      else if pat.isPrefixOf (c :: rest) then
        rep ++ pyReplace pat rep ((c :: rest).drop pat.length)
      else c :: pyReplace pat rep rest := by
  show pyReplaceAux pat rep (rest.length + 1) (c :: rest) = _
  simp only [pyReplaceAux]
  by_cases hemp : pat.isEmpty
  · simp [hemp, pyReplace]
  · have hpos : 0 < pat.length :=
      length_pos_of_not_isEmpty pat (eq_false_of_ne_true hemp)
    simp only [hemp, if_false]
    by_cases hpre : pat.isPrefixOf (c :: rest)
    · simp only [hpre, if_true]
      have hc : pyReplaceAux pat rep rest.length ((c :: rest).drop pat.length) =
          pyReplace pat rep ((c :: rest).drop pat.length) := by
        apply pyReplaceAux_congr
        · simp [List.length_drop]; omega
        · exact le_rfl
      rw [hc]
      simp
    · simp [hpre, pyReplace]

lemma countOccAux_nil (pat : List Char) (n : Nat) :
    countOccAux pat n [] = if pat.isEmpty then 1 else 0 := by
  cases n <;> rfl

lemma countOccAux_congr (pat : List Char) :
    ∀ n m (s : List Char), s.length ≤ n → s.length ≤ m →
      countOccAux pat n s = countOccAux pat m s := by
  intro n
  induction n with
  | zero =>
    intro m s hn _
    have hs : s = [] := by cases s with
      | nil => rfl
      | cons c rest => simp at hn
    subst hs
    rw [countOccAux_nil, countOccAux_nil]
  | succ k ih =>
    intro m s hn hm
    cases s with
    | nil => rw [countOccAux_nil, countOccAux_nil]
    | cons c rest =>
      cases m with
      | zero => simp at hm
      | succ m' =>
        have hrest : rest.length ≤ k := by simp at hn; omega
        have hrest' : rest.length ≤ m' := by simp at hm; omega
        by_cases hemp : pat.isEmpty
        · simp only [countOccAux, hemp, if_true]
          rw [ih m' rest hrest hrest']
        · have hpos : 0 < pat.length :=
            length_pos_of_not_isEmpty pat (eq_false_of_ne_true hemp)
          have hdrop : ((c :: rest).drop pat.length).length ≤ k := by
            simp [List.length_drop]; omega
          have hdrop' : ((c :: rest).drop pat.length).length ≤ m' := by
            simp [List.length_drop]; omega
          by_cases hpre : pat.isPrefixOf (c :: rest)
          · simp only [countOccAux]
            simp only [hemp, hpre, Bool.false_eq_true, if_false, if_true]
            rw [ih m' _ hdrop hdrop']
          · simp only [countOccAux]
            simp only [hemp, hpre, Bool.false_eq_true, if_false]
            rw [ih m' rest hrest hrest']

lemma countOcc_nil (pat : List Char) :
    countOcc pat [] = if pat.isEmpty then 1 else 0 := rfl

lemma countOcc_cons (pat : List Char) (c : Char) (rest : List Char) :
    countOcc pat (c :: rest) =
      if pat.isEmpty then 1 + countOcc pat rest
      else if pat.isPrefixOf (c :: rest) then
        1 + countOcc pat ((c :: rest).drop pat.length)
      else countOcc pat rest := by
  show countOccAux pat (rest.length + 1) (c :: rest) = _
  simp only [countOccAux]
  by_cases hemp : pat.isEmpty
  · simp [hemp, countOcc]
  · have hpos : 0 < pat.length :=
      length_pos_of_not_isEmpty pat (eq_false_of_ne_true hemp)
    simp only [hemp, if_false]
    by_cases hpre : pat.isPrefixOf (c :: rest)
    · simp only [hpre, if_true]
      have hc : countOccAux pat rest.length ((c :: rest).drop pat.length) =
          countOcc pat ((c :: rest).drop pat.length) := by
        apply countOccAux_congr
        · simp [List.length_drop]; omega
        · exact le_rfl
      rw [hc]
      simp
    · simp [hpre, countOcc]

/-! Theory of `occursIn` and `pyReplace`. -/

lemma occursIn_eq_true_iff (pat s : List Char) : occursIn pat s = true ↔ pat <:+: s := by
  induction s with
  | nil =>
    simp only [occursIn, List.isEmpty_iff]
    constructor
    · intro h
      subst h
      exact List.infix_refl []
    · intro h
      exact List.eq_nil_of_sublist_nil h.sublist
  | cons c rest ih =>
    simp only [occursIn, Bool.or_eq_true, ih, isPrefixOf_eq_true_iff]
    rw [List.infix_cons_iff]

lemma occursIn_rest (pat : List Char) (c : Char) (rest : List Char)
    (h : occursIn pat (c :: rest) = true) (hpre : pat.isPrefixOf (c :: rest) = false) :
    occursIn pat rest = true := by
  simp only [occursIn, hpre, Bool.false_or] at h
  exact h

lemma rep_infix_of_occurs (pat rep : List Char) :
    ∀ n (s : List Char), s.length ≤ n → occursIn pat s = true →
      rep <:+: pyReplace pat rep s := by
  intro n
  induction n with
  | zero =>
    intro s hn hocc
    have hs : s = [] := by cases s with
      | nil => rfl
      | cons c rest => simp at hn
    subst hs
    simp only [occursIn, List.isEmpty_iff] at hocc
    subst hocc
    rw [pyReplace_nil]
    exact ⟨[], [], by simp⟩
  | succ k ih =>
    intro s hn hocc
    cases s with
    | nil =>
      simp only [occursIn, List.isEmpty_iff] at hocc
      subst hocc
      rw [pyReplace_nil]
      exact ⟨[], [], by simp⟩
    | cons c rest =>
      rw [pyReplace_cons]
      by_cases hemp : pat.isEmpty
      · simp only [hemp, if_true]
        exact ⟨[], c :: pyReplace pat rep rest, by simp⟩
      · simp only [hemp, Bool.false_eq_true, if_false]
        by_cases hpre : pat.isPrefixOf (c :: rest)
        · simp only [hpre, if_true]
          exact ⟨[], pyReplace pat rep ((c :: rest).drop pat.length), by simp⟩
        · simp only [hpre, Bool.false_eq_true, if_false]
          have hocc' : occursIn pat rest = true :=
            occursIn_rest pat c rest hocc (eq_false_of_ne_true hpre)
          have hlen : rest.length ≤ k := by simp at hn; omega
          exact List.infix_cons (ih rest hlen hocc')

lemma countOcc_pos (pat : List Char) :
    ∀ n (s : List Char), s.length ≤ n → occursIn pat s = true → 1 ≤ countOcc pat s := by
  intro n
  induction n with
  | zero =>
    intro s hn hocc
    have hs : s = [] := by cases s with
      | nil => rfl
      | cons c rest => simp at hn
    subst hs
    simp only [occursIn, List.isEmpty_iff] at hocc
    simp [countOcc_nil, hocc]
  | succ k ih =>
    intro s hn hocc
    cases s with
    | nil =>
      simp only [occursIn, List.isEmpty_iff] at hocc
      simp [countOcc_nil, hocc]
    | cons c rest =>
      rw [countOcc_cons]
      by_cases hemp : pat.isEmpty
      · simp [hemp]
      · simp only [hemp, Bool.false_eq_true, if_false]
        by_cases hpre : pat.isPrefixOf (c :: rest)
        · simp [hpre]
        · simp only [hpre, Bool.false_eq_true, if_false]
          have hocc' : occursIn pat rest = true :=
            occursIn_rest pat c rest hocc (eq_false_of_ne_true hpre)
          have hlen : rest.length ≤ k := by simp at hn; omega
          exact ih rest hlen hocc'

lemma pyReplace_countOcc_length (pat rep : List Char) :
    ∀ n (s : List Char), s.length ≤ n →
      (pyReplace pat rep s).length + countOcc pat s * pat.length =
        s.length + countOcc pat s * rep.length := by
  intro n
  induction n with
  | zero =>
    intro s hn
    have hs : s = [] := by cases s with
      | nil => rfl
      | cons c rest => simp at hn
    subst hs
    rw [pyReplace_nil, countOcc_nil]
    by_cases hemp : pat.isEmpty
    · have : pat = [] := by simpa [List.isEmpty_iff] using hemp
      simp [hemp, this]
    · simp [hemp]
  | succ k ih =>
    intro s hn
    cases s with
    | nil =>
      rw [pyReplace_nil, countOcc_nil]
      by_cases hemp : pat.isEmpty
      · have : pat = [] := by simpa [List.isEmpty_iff] using hemp
        simp [hemp, this]
      · simp [hemp]
    | cons c rest =>
      rw [pyReplace_cons, countOcc_cons]
      have hlen : rest.length ≤ k := by simp at hn; omega
      by_cases hemp : pat.isEmpty
      · have hpat : pat = [] := by simpa [List.isEmpty_iff] using hemp
        have hih := ih rest hlen
        simp only [hemp, if_true]
        simp only [hpat, List.length_nil, Nat.mul_zero, Nat.add_zero] at hih ⊢
        simp only [List.length_append, List.length_cons]
        rw [Nat.add_mul, Nat.one_mul]
        generalize hx : countOcc [] rest * rep.length = x at hih ⊢
        omega
      · have hpos : 0 < pat.length :=
          length_pos_of_not_isEmpty pat (eq_false_of_ne_true hemp)
        simp only [hemp, Bool.false_eq_true, if_false]
        by_cases hpre : pat.isPrefixOf (c :: rest)
        · simp only [hpre, if_true]
          have hple : pat.length ≤ rest.length + 1 := by
            have := (isPrefixOf_eq_true_iff pat (c :: rest)).mp hpre
            simpa using this.length_le
          have hdlen : ((c :: rest).drop pat.length).length ≤ k := by
            simp [List.length_drop]; omega
          have hih := ih _ hdlen
          simp only [List.length_append, List.length_drop, List.length_cons] at hih ⊢
          generalize hx : countOcc pat (List.drop pat.length (c :: rest)) * pat.length = x at hih ⊢
          generalize hy : countOcc pat (List.drop pat.length (c :: rest)) * rep.length = y at hih ⊢
          rw [Nat.add_mul, Nat.add_mul, Nat.one_mul, Nat.one_mul]
          omega
        · simp only [hpre, Bool.false_eq_true, if_false]
          have hih := ih rest hlen
          simp only [List.length_cons]
          omega

lemma pyReplace_len_eq (pat rep s : List Char) (hocc : occursIn pat s = true)
    (heq : pyReplace pat rep s = s) : pat.length = rep.length := by
  have hbal := pyReplace_countOcc_length pat rep s.length s le_rfl
  rw [heq] at hbal
  have hc : 1 ≤ countOcc pat s := countOcc_pos pat s.length s le_rfl hocc
  have hmul : countOcc pat s * pat.length = countOcc pat s * rep.length := by omega
  exact Nat.eq_of_mul_eq_mul_left hc hmul

lemma pyReplace_fix (pat rep : List Char) (hlen : pat.length = rep.length) :
    ∀ n (s : List Char), s.length ≤ n → occursIn pat s = true →
      pyReplace pat rep s = s → pat = rep := by
  intro n
  induction n with
  | zero =>
    intro s hn hocc heq
    have hs : s = [] := by cases s with
      | nil => rfl
      | cons c rest => simp at hn
    subst hs
    simp only [occursIn, List.isEmpty_iff] at hocc
    subst hocc
    have hrep : rep = [] := List.length_eq_zero.mp hlen.symm
    rw [hrep]
  | succ k ih =>
    intro s hn hocc heq
    by_cases hemp : pat.isEmpty
    · have hpat : pat = [] := by simpa [List.isEmpty_iff] using hemp
      subst hpat
      have : rep = [] := List.length_eq_zero.mp hlen.symm
      rw [this]
    · cases s with
      | nil =>
        simp only [occursIn, List.isEmpty_iff] at hocc
        subst hocc
        simp at hemp
      | cons c rest =>
        rw [pyReplace_cons] at heq
        simp only [hemp, Bool.false_eq_true, if_false] at heq
        by_cases hpre : pat.isPrefixOf (c :: rest)
        · simp only [hpre, if_true] at heq
          obtain ⟨t, ht⟩ := (isPrefixOf_eq_true_iff pat (c :: rest)).mp hpre
          have hpat_take : (c :: rest).take pat.length = pat := by
            rw [← ht]
            exact List.take_left pat t
          have hrep_take : (c :: rest).take rep.length = rep := by
            rw [← heq]
            exact List.take_left rep _
          rw [← hpat_take, ← hrep_take, hlen]
        · simp only [hpre, Bool.false_eq_true, if_false, List.cons.injEq, true_and] at heq
          have hocc' : occursIn pat rest = true :=
            occursIn_rest pat c rest hocc (eq_false_of_ne_true hpre)
          have hl : rest.length ≤ k := by simp at hn; omega
          exact ih rest hl hocc' heq

lemma pyReplace_ne_self (pat rep s : List Char) (hne : pat ≠ rep)
    (hocc : occursIn pat s = true) : pyReplace pat rep s ≠ s := by
  intro heq
  exact hne (pyReplace_fix pat rep (pyReplace_len_eq pat rep s hocc heq)
    s.length s le_rfl hocc heq)

/-! Executor lemmas. -/

lemma execPlan_nil (fs : List (List Char)) : execPlan fs [] = (fs, []) := rfl

lemma execPlan_cons (fs : List (List Char)) (e : List Char × List Char)
    (rest : List (List Char × List Char)) :
    execPlan fs (e :: rest) =
      ((execPlan (rename fs e.1 e.2).1 rest).1,
       (e.1, e.2, (rename fs e.1 e.2).2) :: (execPlan (rename fs e.1 e.2).1 rest).2) := rfl

lemma execPlan_append (p₁ p₂ : List (List Char × List Char)) :
    ∀ fs, execPlan fs (p₁ ++ p₂) =
      ((execPlan (execPlan fs p₁).1 p₂).1,
       (execPlan fs p₁).2 ++ (execPlan (execPlan fs p₁).1 p₂).2) := by
  induction p₁ with
  | nil => intro fs; simp [execPlan]
  | cons e rest ih => intro fs; simp [execPlan, ih]

lemma execPlan_trace_length (plan : List (List Char × List Char)) :
    ∀ fs, (execPlan fs plan).2.length = plan.length := by
  induction plan with
  | nil => intro fs; rfl
  | cons e rest ih => intro fs; simp [execPlan, ih]

lemma execPlan_trace_pairs (plan : List (List Char × List Char)) :
    ∀ fs, (execPlan fs plan).2.map (fun t => (t.1, t.2.1)) = plan := by
  induction plan with
  | nil => intro fs; rfl
  | cons e rest ih => intro fs; simp [execPlan, ih]

lemma rename_outcome_eq (fs : List (List Char)) (old_path new_path : List Char) :
    (rename fs old_path new_path).2 =
      if old_path ∉ fs then RenameOutcome.SkippedMissingSource
      else if new_path ∈ fs then RenameOutcome.SkippedTargetExists
      else RenameOutcome.Applied := by
  simp only [rename]
  split_ifs <;> rfl

lemma rename_state_eq (fs : List (List Char)) (old_path new_path : List Char) :
    (rename fs old_path new_path).1 =
      if old_path ∉ fs then fs
      else if new_path ∈ fs then fs
      else fs.erase old_path ++ [new_path] := by
  simp only [rename]
  split_ifs <;> rfl

/-- C1: for every plan and every confirmation answer other than the literal
`"y"`, `rename_these` performs no filesystem mutation: the directory listing
is returned unchanged and the outcome trace is empty (no rename was invoked). -/
theorem claim_C1_decline_no_mutation (fs : List (List Char))
    (plan : List (List Char × List Char)) (ans : String) (h : ans ≠ "y") :
    rename_these fs plan ans = (fs, []) := by
  simp [rename_these, h]

theorem claim_C1_witness :
    rename_these ["a.txt".data] [("a.txt".data, "b.txt".data)] "yes" =
      (["a.txt".data], []) :=
  claim_C1_decline_no_mutation ["a.txt".data] [("a.txt".data, "b.txt".data)] "yes"
    (by decide)

/-- C9: the executor returns one `(old, new, outcome)` triple per plan entry,
in the plan's insertion order, when the plan is confirmed with `"y"`; any
other answer yields the empty outcome sequence. -/
theorem claim_C9_outcome_sequence (fs : List (List Char))
    (plan : List (List Char × List Char)) (ans : String) :
    ((rename_these fs plan ans).2).map (fun t => (t.1, t.2.1)) =
      if ans = "y" then plan else [] := by
  by_cases h : ans = "y"
  · simp [rename_these, h, execPlan_trace_pairs]
  · simp [rename_these, h]

/-- C2: per-entry behaviour of a confirmed batch. The `i`-th outcome (in plan
insertion order) is produced by checking the current listing immediately
before the entry's rename: a missing source gives `SkippedMissingSource`, an
existing destination gives `SkippedTargetExists` (both leave the listing
unchanged), otherwise the rename is applied; in all cases the batch continues
with the next entry, no entry aborts or rolls back any other. -/
theorem claim_C2_entry_outcomes (fs : List (List Char))
    (plan : List (List Char × List Char)) (i : Nat) :
    (rename_these fs plan "y").2[i]? =
      (plan[i]?).map (fun e =>
        (e.1, e.2,
          if e.1 ∉ (execPlan fs (plan.take i)).1 then RenameOutcome.SkippedMissingSource
          else if e.2 ∈ (execPlan fs (plan.take i)).1 then RenameOutcome.SkippedTargetExists
          else RenameOutcome.Applied))
    ∧ (execPlan fs (plan.take (i + 1))).1 =
      (match plan[i]? with
       | none => (execPlan fs (plan.take i)).1
       | some e =>
          if e.1 ∉ (execPlan fs (plan.take i)).1 then (execPlan fs (plan.take i)).1
          else if e.2 ∈ (execPlan fs (plan.take i)).1 then (execPlan fs (plan.take i)).1
          else ((execPlan fs (plan.take i)).1.erase e.1) ++ [e.2]) := by
  have hyes : rename_these fs plan "y" = execPlan fs plan := by
    simp [rename_these]
  by_cases hi : i < plan.length
  · have hsome : plan[i]? = some plan[i] := List.getElem?_eq_getElem hi
    have htake : plan.take (i + 1) = plan.take i ++ [plan[i]] := by
      rw [List.take_succ, hsome]
      rfl
    have hsplit : plan = plan.take i ++ (plan[i] :: plan.drop (i + 1)) := by
      conv_lhs => rw [← List.take_append_drop i plan]
      rw [List.drop_eq_getElem_cons hi]
    constructor
    · rw [hyes]
      conv_lhs => rw [hsplit]
      rw [execPlan_append]
      have hlen : (execPlan fs (plan.take i)).2.length = i := by
        rw [execPlan_trace_length]
        simp [List.length_take]
        omega
      rw [List.getElem?_append_right (by omega)]
      rw [hlen]
      simp only [Nat.sub_self, execPlan_cons, hsome, Option.map_some]
      rw [List.getElem?_cons_zero]
      rw [rename_outcome_eq]
      rfl
    · rw [htake, execPlan_append]
      simp only [execPlan_cons, execPlan_nil, hsome]
      rw [rename_state_eq]
  · have hnone : plan[i]? = none := List.getElem?_eq_none_iff.mpr (by omega)
    have htk : plan.take i = plan := List.take_of_length_le (by omega)
    have htk' : plan.take (i + 1) = plan := List.take_of_length_le (by omega)
    constructor
    · rw [hyes, hnone]
      refine List.getElem?_eq_none_iff.mpr ?_
      rw [execPlan_trace_length]
      omega
    · rw [hnone, htk, htk']

/-! Replace planner. -/

lemma replacePlan_mem (fs : List (List Char)) (a b f g : List Char) :
    (f, g) ∈ replacePlan fs a b ↔
      f ∈ fs ∧ occursIn a f = true ∧ g = pyReplace a b f := by
  simp only [replacePlan, List.mem_map, List.mem_filter]
  constructor
  · rintro ⟨x, ⟨hx, hocc⟩, heq⟩
    cases heq
    exact ⟨hx, hocc, rfl⟩
  · rintro ⟨hf, hocc, rfl⟩
    exact ⟨f, ⟨hf, hocc⟩, rfl⟩

/-- C4: the Replace plan contains filename `f` as a key (with some value `g`)
iff `change_this` occurs in `f`; the value is `f` with every non-overlapping
occurrence of `change_this` replaced by `to_this`, scanning left to right
(`pyReplace`); filenames not containing `change_this` are excluded. -/
theorem claim_C4_replace_plan (fs : List (List Char)) (a b f g : List Char) :
    (f, g) ∈ replacePlan fs a b ↔
      f ∈ fs ∧ occursIn a f = true ∧ g = pyReplace a b f :=
  replacePlan_mem fs a b f g

theorem claim_C4_witness :
    ("data.txt".data, "info.txt".data) ∈
      replacePlan ["data.txt".data] "data".data "info".data :=
  (claim_C4_replace_plan ["data.txt".data] "data".data "info".data
    "data.txt".data "info.txt".data).mpr (by decide)

/-- C5 counterexample: for `from = "ab"`, `to = "b"`, `f = "aab"`, the plan's
entry for `f` is `"ab"`, which still contains `from` even though `to` does not
contain `from` — so "zero occurrences iff `to` does not contain `from`" fails
in the right-to-left direction. -/
theorem claim_C5_counterexample :
    ("aab".data, "ab".data) ∈ replacePlan ["aab".data] "ab".data "b".data ∧
    occursIn "ab".data "b".data = false ∧
    occursIn "ab".data "ab".data = true := by decide

/-- C5 amended: only the left-to-right direction of the claim holds — for a
filename containing `from`, if `to` also contains `from` then the plan's
entry for it still contains `from` (equivalently: an entry with zero
occurrences of `from` forces `to` not to contain `from`). The converse is
false: replacement can create new occurrences spanning the boundary. -/
theorem claim_C5_amended (a b f : List Char) (hf : occursIn a f = true)
    (hb : occursIn a b = true) : occursIn a (pyReplace a b f) = true := by
  rw [occursIn_eq_true_iff] at hb ⊢
  exact hb.trans (rep_infix_of_occurs a b f.length f le_rfl hf)

theorem claim_C5_witness :
    occursIn "a".data (pyReplace "a".data "aa".data "abc".data) = true :=
  claim_C5_amended "a".data "aa".data "abc".data (by decide) (by decide)

/-! Suffix planner. -/

lemma get_suffixed_ok (f s : List Char) (hdot : '.' ∈ f) :
    get_suffixed f s =
      Except.ok (f.takeWhile (fun c => c != '.') ++ s ++ f.dropWhile (fun c => c != '.')) := by
  simp [get_suffixed, get_ext, hdot, Except.map]

lemma get_suffixed_error (f s : List Char) (hdot : '.' ∉ f) :
    get_suffixed f s = Except.error PlanError.NoExtension := by
  simp [get_suffixed, get_ext, hdot, Except.map]

lemma suffixPlan_error_iff (s : List Char) : ∀ fs : List (List Char),
    (suffixPlan fs s = Except.error PlanError.NoExtension ↔
      ∃ f, f ∈ fs ∧ s.isSuffixOf f = false ∧ '.' ∉ f) := by
  intro fs
  induction fs with
  | nil => simp [suffixPlan]
  | cons f rest ih =>
    by_cases hs : s.isSuffixOf f
    · simp only [suffixPlan, hs, if_true]
      rw [ih]
      constructor
      · rintro ⟨x, hx, h1, h2⟩
        exact ⟨x, List.mem_cons_of_mem f hx, h1, h2⟩
      · rintro ⟨x, hx, h1, h2⟩
        rcases List.mem_cons.mp hx with rfl | hx'
        · exact absurd h1 (by simp [hs])
        · exact ⟨x, hx', h1, h2⟩
    · by_cases hdot : '.' ∈ f
      · rcases hrest : suffixPlan rest s with e | p
        · cases e
          simp only [suffixPlan, if_neg hs, get_suffixed_ok f s hdot, hrest]
          constructor
          · intro _
            obtain ⟨x, hx, h1, h2⟩ := (ih).mp hrest
            exact ⟨x, List.mem_cons_of_mem f hx, h1, h2⟩
          · intro _
            rfl
        · simp only [suffixPlan, if_neg hs, get_suffixed_ok f s hdot, hrest]
          constructor
          · intro h
            simp [Except.map] at h
          · rintro ⟨x, hx, h1, h2⟩
            rcases List.mem_cons.mp hx with rfl | hx'
            · exact absurd hdot h2
            · have : suffixPlan rest s = Except.error PlanError.NoExtension :=
                ih.mpr ⟨x, hx', h1, h2⟩
              rw [this] at hrest
              cases hrest
      · simp only [suffixPlan, if_neg hs, get_suffixed_error f s hdot]
        constructor
        · intro _
          exact ⟨f, List.mem_cons_self f rest, eq_false_of_ne_true hs, hdot⟩
        · intro _
          trivial

lemma suffixPlan_ok_mem (s : List Char) : ∀ (fs : List (List Char))
    (plan : List (List Char × List Char)),
    suffixPlan fs s = Except.ok plan → ∀ f g : List Char,
      ((f, g) ∈ plan ↔
        (f ∈ fs ∧ s.isSuffixOf f = false ∧ '.' ∈ f ∧
          g = f.takeWhile (fun c => c != '.') ++ s ++ f.dropWhile (fun c => c != '.'))) := by
  intro fs
  induction fs with
  | nil =>
    intro plan hok f g
    simp only [suffixPlan] at hok
    cases hok
    simp
  | cons x rest ih =>
    intro plan hok f g
    by_cases hs : s.isSuffixOf x
    · simp only [suffixPlan, hs, if_true] at hok
      rw [ih plan hok f g]
      constructor
      · rintro ⟨h0, h1, h2, h3⟩
        exact ⟨List.mem_cons_of_mem x h0, h1, h2, h3⟩
      · rintro ⟨h0, h1, h2, h3⟩
        rcases List.mem_cons.mp h0 with rfl | hx'
        · exact absurd h1 (by simp [hs])
        · exact ⟨hx', h1, h2, h3⟩
    · by_cases hdot : '.' ∈ x
      · rcases hrest : suffixPlan rest s with e | p
        · simp only [suffixPlan, if_neg hs, get_suffixed_ok x s hdot, hrest] at hok
          simp [Except.map] at hok
        · simp only [suffixPlan, if_neg hs, get_suffixed_ok x s hdot, hrest] at hok
          simp only [Except.map] at hok
          cases hok
          constructor
          · intro hmem
            rcases List.mem_cons.mp hmem with heq | hmem'
            · cases heq
              exact ⟨List.mem_cons_self x rest, eq_false_of_ne_true hs, hdot, rfl⟩
            · obtain ⟨h0, h1, h2, h3⟩ := (ih p hrest f g).mp hmem'
              exact ⟨List.mem_cons_of_mem x h0, h1, h2, h3⟩
          · rintro ⟨h0, h1, h2, h3⟩
            rcases List.mem_cons.mp h0 with rfl | hx'
            · subst h3
              exact List.mem_cons_self _ _
            · exact List.mem_cons_of_mem _ ((ih p hrest f g).mpr ⟨hx', h1, h2, h3⟩)
      · simp only [suffixPlan, if_neg hs, get_suffixed_error x s hdot] at hok
        cases hok

/-- C8: Suffix planning over a snapshot: it fails with `NoExtension`
(surfaced to the caller) exactly when some filename that does not already end
with the suffix lacks a `.`; and when it succeeds, the plan contains a
filename iff it does not already end with the suffix, mapped to
`stem + suffix + extension` where the split is at the first `.`. -/
theorem claim_C8_suffix_plan (fs : List (List Char)) (s : List Char) :
    (suffixPlan fs s = Except.error PlanError.NoExtension ↔
      ∃ f, f ∈ fs ∧ s.isSuffixOf f = false ∧ '.' ∉ f)
    ∧ ∀ plan, suffixPlan fs s = Except.ok plan → ∀ f g : List Char,
        ((f, g) ∈ plan ↔
          (f ∈ fs ∧ s.isSuffixOf f = false ∧
            g = f.takeWhile (fun c => c != '.') ++ s ++ f.dropWhile (fun c => c != '.'))) := by
  refine ⟨suffixPlan_error_iff s fs, ?_⟩
  intro plan hok f g
  rw [suffixPlan_ok_mem s fs plan hok f g]
  constructor
  · rintro ⟨h0, h1, _, h3⟩
    exact ⟨h0, h1, h3⟩
  · rintro ⟨h0, h1, h3⟩
    by_cases hdot : '.' ∈ f
    · exact ⟨h0, h1, hdot, h3⟩
    · have herr : suffixPlan fs s = Except.error PlanError.NoExtension :=
        (suffixPlan_error_iff s fs).mpr ⟨f, h0, h1, hdot⟩
      rw [herr] at hok
      cases hok

theorem claim_C8_witness :
    ("report.csv".data, "report_v2.csv".data) ∈
      [("report.csv".data, "report_v2.csv".data), ("summary.csv".data, "summary_v2.csv".data)] :=
  ((claim_C8_suffix_plan ["report.csv".data, "summary.csv".data] "_v2".data).2
    [("report.csv".data, "report_v2.csv".data), ("summary.csv".data, "summary_v2.csv".data)]
    rfl "report.csv".data "report_v2.csv".data).mpr (by decide)

/-! Enumeration planner. -/

lemma enumPlanFrom_getElem (start : Int) (sep : List Char) :
    ∀ (l : List (List Char)) (i j : Nat),
      (enumPlanFrom start sep i l)[j]? =
        (l[j]?).map (fun f => (f, f ++ sep ++ str_of_int (((i + j : Nat) : Int) + start))) := by
  intro l
  induction l with
  | nil => intro i j; simp [enumPlanFrom]
  | cons f rest ih =>
    intro i j
    cases j with
    | zero => simp [enumPlanFrom]
    | succ k =>
      simp only [enumPlanFrom, List.getElem?_cons_succ]
      rw [ih (i + 1) k]
      have harith : i + 1 + k = i + (k + 1) := by omega
      rw [harith]

lemma enumPlan_getElem (fs : List (List Char)) (start : Int) (sep : List Char) (i : Nat) :
    (enumPlan fs start sep)[i]? =
      (fs[i]?).map (fun f => (f, f ++ sep ++ str_of_int ((i : Int) + start))) := by
  rw [enumPlan, enumPlanFrom_getElem]
  simp

lemma enumPlanFrom_keys (start : Int) (sep : List Char) :
    ∀ (l : List (List Char)) (i : Nat), (enumPlanFrom start sep i l).map Prod.fst = l := by
  intro l
  induction l with
  | nil => intro i; rfl
  | cons f rest ih => intro i; simp [enumPlanFrom, ih]

lemma enumPlanFrom_mem (start : Int) (sep : List Char) :
    ∀ (l : List (List Char)) (i : Nat) (pr : List Char × List Char),
      pr ∈ enumPlanFrom start sep i l →
        pr.1 ∈ l ∧ ∃ k : Nat, pr.2 = pr.1 ++ sep ++ str_of_int ((k : Int) + start) := by
  intro l
  induction l with
  | nil => intro i pr h; simp [enumPlanFrom] at h
  | cons f rest ih =>
    intro i pr h
    rcases List.mem_cons.mp h with heq | hmem
    · cases heq
      exact ⟨List.mem_cons_self _ _, i, rfl⟩
    · obtain ⟨h1, k, h2⟩ := ih (i + 1) pr hmem
      exact ⟨List.mem_cons_of_mem _ h1, k, h2⟩

/-- C6: the Enumerate plan includes every filename, with no filtering, in
listing order (its keys are exactly the snapshot); the entry at index `i`
maps the filename at index `i` to `name + sep + str(i + start)`, appended
after the extension; in particular `start = 5`, `sep = "_"` over
`["a.txt", "b.txt", "c.txt"]` yields `a.txt_5`, `b.txt_6`, `c.txt_7` in that
order. -/
theorem claim_C6_enum_plan :
    (∀ (fs : List (List Char)) (start : Int) (sep : List Char) (i : Nat),
      (enumPlan fs start sep).map Prod.fst = fs ∧
      (enumPlan fs start sep)[i]? =
        (fs[i]?).map (fun f => (f, f ++ sep ++ str_of_int ((i : Int) + start))))
    ∧ enumPlan ["a.txt".data, "b.txt".data, "c.txt".data] 5 "_".data =
        [("a.txt".data, "a.txt_5".data), ("b.txt".data, "b.txt_6".data),
         ("c.txt".data, "c.txt_7".data)] :=
  ⟨fun fs start sep i => ⟨enumPlanFrom_keys start sep fs 0, enumPlan_getElem fs start sep i⟩,
   by decide⟩

/-- C10: the `loc` argument of `add_enum` has no effect whatsoever on the
result — any two values of `loc` produce identical behaviour — and every plan
entry appends the separator and number at the very end of the filename. -/
theorem claim_C10_loc_no_effect (fs : List (List Char)) (start : Int)
    (loc₁ loc₂ sep : List Char) (ans : String) (i : Nat) :
    add_enum fs start loc₁ sep ans = add_enum fs start loc₂ sep ans ∧
    (enumPlan fs start sep)[i]? =
      (fs[i]?).map (fun f => (f, f ++ sep ++ str_of_int ((i : Int) + start))) :=
  ⟨rfl, enumPlan_getElem fs start sep i⟩

/-! Prefix planner: idempotence of a fully applied prefix pass. -/

lemma rename_applied_inv (fs : List (List Char)) (old_path new_path : List Char)
    (h : (rename fs old_path new_path).2 = RenameOutcome.Applied) :
    old_path ∈ fs ∧ new_path ∉ fs ∧
      (rename fs old_path new_path).1 = fs.erase old_path ++ [new_path] := by
  by_cases h1 : old_path ∈ fs
  · by_cases h2 : new_path ∈ fs
    · rw [rename_outcome_eq] at h
      simp [h1, h2] at h
    · exact ⟨h1, h2, by simp [rename, h1, h2]⟩
  · rw [rename_outcome_eq] at h
    simp [h1] at h

lemma execPlan_applied_all_prefixed (p : List Char) :
    ∀ (plan : List (List Char × List Char)) (fs : List (List Char)),
      fs.Nodup →
      (∀ t ∈ (execPlan fs plan).2, t.2.2 = RenameOutcome.Applied) →
      (∀ g ∈ fs, p.isPrefixOf g = true ∨ g ∈ plan.map Prod.fst) →
      (∀ pr ∈ plan, p.isPrefixOf pr.2 = true) →
      ∀ g ∈ (execPlan fs plan).1, p.isPrefixOf g = true := by
  intro plan
  induction plan with
  | nil =>
    intro fs _ _ hcov _ g hg
    rcases hcov g hg with h | h
    · exact h
    · simp at h
  | cons e rest ih =>
    intro fs hnd happ hcov hval g hg
    have happ_e : (rename fs e.1 e.2).2 = RenameOutcome.Applied :=
      happ (e.1, e.2, (rename fs e.1 e.2).2) (List.mem_cons_self _ _)
    obtain ⟨hold, hnew, hst⟩ := rename_applied_inv fs e.1 e.2 happ_e
    have hnd' : ((rename fs e.1 e.2).1).Nodup := by
      rw [hst, List.nodup_append]
      refine ⟨hnd.erase e.1, List.nodup_singleton _, ?_⟩
      intro a ha hb
      have hab : a = e.2 := by simpa using hb
      subst hab
      exact hnew (List.mem_of_mem_erase ha)
    have happ' : ∀ t ∈ (execPlan (rename fs e.1 e.2).1 rest).2,
        t.2.2 = RenameOutcome.Applied := by
      intro t ht
      exact happ t (List.mem_cons_of_mem _ ht)
    have hcov' : ∀ g' ∈ (rename fs e.1 e.2).1,
        p.isPrefixOf g' = true ∨ g' ∈ rest.map Prod.fst := by
      intro g' hg'
      rw [hst] at hg'
      rcases List.mem_append.mp hg' with hg1 | hg2
      · have hmem : g' ∈ fs := List.mem_of_mem_erase hg1
        have hne : g' ≠ e.1 := (hnd.mem_erase_iff.mp hg1).1
        rcases hcov g' hmem with h | h
        · exact Or.inl h
        · rcases (by simpa using h : g' = e.1 ∨ g' ∈ rest.map Prod.fst) with h' | h'
          · exact absurd h' hne
          · exact Or.inr h'
      · have hg2' : g' = e.2 := by simpa using hg2
        subst hg2'
        exact Or.inl (hval e (List.mem_cons_self _ _))
    have hval' : ∀ pr ∈ rest, p.isPrefixOf pr.2 = true :=
      fun pr hpr => hval pr (List.mem_cons_of_mem _ hpr)
    exact ih (rename fs e.1 e.2).1 hnd' happ' hcov' hval' g hg

/-- C7: a fully applied prefix pass is idempotent. If the confirmed execution
of the prefix plan applies every entry (no skips), then planning the same
prefix again over the resulting directory listing gives the empty plan,
because every resulting name starts with the prefix. -/
theorem claim_C7_prefix_twice_empty (fs : List (List Char)) (p : List Char)
    (hnd : fs.Nodup)
    (happ : ∀ t ∈ (rename_these fs (prefixPlan fs p) "y").2,
      t.2.2 = RenameOutcome.Applied) :
    prefixPlan (rename_these fs (prefixPlan fs p) "y").1 p = [] := by
  have hyes : rename_these fs (prefixPlan fs p) "y" = execPlan fs (prefixPlan fs p) := by
    simp [rename_these]
  rw [hyes] at happ ⊢
  have hall : ∀ g ∈ (execPlan fs (prefixPlan fs p)).1, p.isPrefixOf g = true := by
    apply execPlan_applied_all_prefixed p (prefixPlan fs p) fs hnd happ
    · intro g hg
      by_cases hp : p.isPrefixOf g
      · exact Or.inl hp
      · right
        simp only [prefixPlan, List.map_map]
        have hid : (Prod.fst ∘ fun f => (f, get_prefixed f p)) = id := rfl
        rw [hid, List.map_id, List.mem_filter]
        exact ⟨hg, by simp [hp]⟩
    · intro pr hpr
      simp only [prefixPlan, List.mem_map, List.mem_filter] at hpr
      obtain ⟨x, ⟨_, _⟩, heq⟩ := hpr
      cases heq
      rw [isPrefixOf_eq_true_iff]
      exact ⟨x, rfl⟩
  simp only [prefixPlan, List.map_eq_nil_iff, List.filter_eq_nil_iff]
  intro a ha
  simp [hall a ha]

theorem claim_C7_witness :
    prefixPlan (rename_these ["a.txt".data]
      (prefixPlan ["a.txt".data] "p".data) "y").1 "p".data = [] :=
  claim_C7_prefix_twice_empty ["a.txt".data] "p".data (by decide) (by decide)

/-! Plan invariants over all rules (C3). -/

lemma toDigitsCore_ne_nil_of_acc (b : Nat) :
    ∀ (fuel n : Nat) (ds : List Char), ds ≠ [] → Nat.toDigitsCore b fuel n ds ≠ [] := by
  intro fuel
  induction fuel with
  | zero =>
    intro n ds h
    simpa [Nat.toDigitsCore] using h
  | succ k ih =>
    intro n ds h
    simp only [Nat.toDigitsCore]
    split
    · simp
    · exact ih (n / b) _ (by simp)

lemma toDigits_ne_nil (b n : Nat) : Nat.toDigits b n ≠ [] := by
  simp only [Nat.toDigits, Nat.toDigitsCore]
  split
  · simp
  · exact toDigitsCore_ne_nil_of_acc b n (n / b) _ (by simp)

lemma str_of_nat_ne_nil (n : Nat) : str_of_nat n ≠ [] := toDigits_ne_nil 10 n

lemma str_of_int_ne_nil (i : Int) : str_of_int i ≠ [] := by
  rw [str_of_int]
  split
  · simp
  · exact str_of_nat_ne_nil _

lemma nil_isSuffixOf_eq_true (l : List Char) : ([] : List Char).isSuffixOf l = true := by
  rw [List.isSuffixOf_iff_suffix]
  exact List.nil_suffix

lemma nil_isPrefixOf_eq_true (l : List Char) : ([] : List Char).isPrefixOf l = true := by
  rw [isPrefixOf_eq_true_iff]
  exact List.nil_prefix

lemma get_suffixed_ok_inv (f m g : List Char) (h : get_suffixed f m = Except.ok g) :
    g = f.takeWhile (fun c => c != '.') ++ m ++ f.dropWhile (fun c => c != '.') := by
  by_cases hdot : '.' ∈ f
  · rw [get_suffixed_ok f m hdot] at h
    cases h
    rfl
  · rw [get_suffixed_error f m hdot] at h
    cases h

lemma get_suffixed_ne_self (f m g : List Char) (hm : m ≠ [])
    (h : get_suffixed f m = Except.ok g) : g ≠ f := by
  intro heq
  have hg := get_suffixed_ok_inv f m g h
  have hsplit : f.takeWhile (fun c => c != '.') ++ f.dropWhile (fun c => c != '.') = f :=
    List.takeWhile_append_dropWhile _ _
  have hlen : g.length = f.length := by rw [heq]
  rw [hg] at hlen
  have hflen : (f.takeWhile (fun c => c != '.')).length +
      (f.dropWhile (fun c => c != '.')).length = f.length := by
    have hcong := congrArg List.length hsplit
    simp only [List.length_append] at hcong
    exact hcong
  simp only [List.length_append] at hlen
  have hm0 : m.length ≠ 0 := fun h0 => hm (List.length_eq_zero.mp h0)
  omega

lemma fromFilePlan_ok_mem (search : List Char → Option (List Char)) (loc : List Char) :
    ∀ (fs : List (List Char)) (plan : List (List Char × List Char)),
      fromFilePlan fs search loc = Except.ok plan →
      ∀ pr ∈ plan, pr.1 ∈ fs ∧
        ∃ m, search pr.1 = some m ∧
          ((loc = "end".data ∧ get_suffixed pr.1 m = Except.ok pr.2) ∨
           (loc ≠ "end".data ∧ pr.2 = get_prefixed pr.1 m)) := by
  intro fs
  induction fs with
  | nil =>
    intro plan hok pr hpr
    simp only [fromFilePlan] at hok
    cases hok
    simp at hpr
  | cons f rest ih =>
    intro plan hok pr hpr
    by_cases htxt : ".txt".data.isSuffixOf f
    · rcases hsearch : search f with _ | m
      · simp only [fromFilePlan, htxt, if_true, hsearch] at hok
        obtain ⟨h1, h2⟩ := ih plan hok pr hpr
        exact ⟨List.mem_cons_of_mem _ h1, h2⟩
      · rcases hjoin : (if loc = "end".data then get_suffixed f m
            else Except.ok (get_prefixed f m)) with e | g
        · simp only [fromFilePlan, htxt, if_true, hsearch, hjoin] at hok
          simp at hok
        · simp only [fromFilePlan, htxt, if_true, hsearch, hjoin] at hok
          rcases hrest : fromFilePlan rest search loc with e' | p'
          · rw [hrest] at hok
            simp [Except.map] at hok
          · rw [hrest] at hok
            simp only [Except.map] at hok
            cases hok
            rcases List.mem_cons.mp hpr with heq | hmem
            · cases heq
              refine ⟨List.mem_cons_self _ _, m, hsearch, ?_⟩
              by_cases hloc : loc = "end".data
              · rw [if_pos hloc] at hjoin
                exact Or.inl ⟨hloc, hjoin⟩
              · rw [if_neg hloc] at hjoin
                cases hjoin
                exact Or.inr ⟨hloc, rfl⟩
            · obtain ⟨h1, h2⟩ := ih p' hrest pr hmem
              exact ⟨List.mem_cons_of_mem _ h1, h2⟩
    · simp only [fromFilePlan, htxt, if_false] at hok
      obtain ⟨h1, h2⟩ := ih plan hok pr hpr
      exact ⟨List.mem_cons_of_mem _ h1, h2⟩

/-- C3 counterexample: for the rule `Replace("a", "a")` over the snapshot
`["a.txt"]` the constructed plan is `[("a.txt", "a.txt")]`, whose key equals
its own value — a no-op rename is not excluded from the plan. -/
theorem claim_C3_counterexample :
    ¬ (∀ pr ∈ replacePlan ["a.txt".data] "a".data "a".data, pr.1 ≠ pr.2) := by
  decide

/-- C3 amended: for every rule, every key of the constructed plan is a member
of the snapshot's filename list. The no-self-map half holds for Prefix,
Suffix and Enumerate rules unconditionally, but for Replace only when
`from ≠ to`, and for ContentMatch only when the matched text is non-empty
(`ruleProper`): `Replace(x, x)` maps every filename containing `x` to itself. -/
theorem claim_C3_amended (r : RenameRule) (fs : List (List Char))
    (plan : List (List Char × List Char)) (hok : rulePlan r fs = Except.ok plan) :
    (∀ pr ∈ plan, pr.1 ∈ fs) ∧
    (ruleProper r → ∀ pr ∈ plan, pr.1 ≠ pr.2) := by
  cases r with
  | Replace a b =>
    simp only [rulePlan] at hok
    cases hok
    constructor
    · intro pr hpr
      exact ((replacePlan_mem fs a b pr.1 pr.2).mp hpr).1
    · intro hproper pr hpr heq
      obtain ⟨_, hocc, hval⟩ := (replacePlan_mem fs a b pr.1 pr.2).mp hpr
      exact pyReplace_ne_self a b pr.1 hproper hocc (heq.trans hval).symm
  | Prepend p =>
    simp only [rulePlan] at hok
    cases hok
    constructor
    · intro pr hpr
      simp only [prefixPlan, List.mem_map, List.mem_filter] at hpr
      obtain ⟨x, ⟨hx, _⟩, heq⟩ := hpr
      cases heq
      exact hx
    · intro _ pr hpr heq
      simp only [prefixPlan, List.mem_map, List.mem_filter] at hpr
      obtain ⟨x, ⟨_, hnp⟩, hpr_eq⟩ := hpr
      cases hpr_eq
      have heq' : x = get_prefixed x p := heq
      have hlencong := congrArg List.length heq'
      simp only [get_prefixed, List.length_append] at hlencong
      have hplen : p.length = 0 := by omega
      have hp : p = [] := List.length_eq_zero.mp hplen
      subst hp
      rw [nil_isPrefixOf_eq_true x] at hnp
      simp at hnp
  | Append s =>
    simp only [rulePlan] at hok
    constructor
    · intro pr hpr
      exact ((suffixPlan_ok_mem s fs plan hok pr.1 pr.2).mp hpr).1
    · intro _ pr hpr heq
      obtain ⟨_, hns, hdot, hval⟩ := (suffixPlan_ok_mem s fs plan hok pr.1 pr.2).mp hpr
      have hsplit : pr.1.takeWhile (fun c => c != '.') ++
          pr.1.dropWhile (fun c => c != '.') = pr.1 :=
        List.takeWhile_append_dropWhile _ _
      have hlen : pr.2.length = pr.1.length := by rw [← heq]
      rw [hval] at hlen
      have hflen : (pr.1.takeWhile (fun c => c != '.')).length +
          (pr.1.dropWhile (fun c => c != '.')).length = pr.1.length := by
        have hcong := congrArg List.length hsplit
        simp only [List.length_append] at hcong
        exact hcong
      simp only [List.length_append] at hlen
      have hslen : s.length = 0 := by omega
      have hs : s = [] := List.length_eq_zero.mp hslen
      subst hs
      rw [nil_isSuffixOf_eq_true pr.1] at hns
      cases hns
  | Enumerate start sep =>
    simp only [rulePlan] at hok
    cases hok
    constructor
    · intro pr hpr
      exact (enumPlanFrom_mem start sep fs 0 pr hpr).1
    · intro _ pr hpr heq
      obtain ⟨_, k, hval⟩ := enumPlanFrom_mem start sep fs 0 pr hpr
      have hlen : pr.2.length = pr.1.length := by rw [← heq]
      rw [hval] at hlen
      simp only [List.length_append] at hlen
      have hd : (str_of_int ((k : Int) + start)).length ≠ 0 :=
        fun h0 => str_of_int_ne_nil _ (List.length_eq_zero.mp h0)
      omega
  | ContentMatch search loc =>
    simp only [rulePlan] at hok
    constructor
    · intro pr hpr
      exact (fromFilePlan_ok_mem search loc fs plan hok pr hpr).1
    · intro hproper pr hpr heq
      obtain ⟨_, m, hsearch, hjoin⟩ := fromFilePlan_ok_mem search loc fs plan hok pr hpr
      have hm : m ≠ [] := hproper pr.1 m hsearch
      rcases hjoin with ⟨_, hsfx⟩ | ⟨_, hpre⟩
      · exact get_suffixed_ne_self pr.1 m pr.2 hm hsfx heq.symm
      · have hlen : pr.2.length = pr.1.length := by rw [← heq]
        rw [hpre] at hlen
        simp only [get_prefixed, List.length_append] at hlen
        have hm0 : m.length ≠ 0 := fun h0 => hm (List.length_eq_zero.mp h0)
        omega

theorem claim_C3_witness :
    ("a.txt".data ∈ ["a.txt".data]) ∧ "a.txt".data ≠ "b.txt".data :=
  ⟨(claim_C3_amended (RenameRule.Replace "a".data "b".data) ["a.txt".data]
      [("a.txt".data, "b.txt".data)] rfl).1 ("a.txt".data, "b.txt".data) (by decide),
   (claim_C3_amended (RenameRule.Replace "a".data "b".data) ["a.txt".data]
      [("a.txt".data, "b.txt".data)] rfl).2
      (show "a".data ≠ "b".data by decide)
      ("a.txt".data, "b.txt".data) (by decide)⟩

end FileReNamer
